import Mathlib

/-!
Shallow embedding of the student-score PCA pipeline (src/main.py) and proofs
of its specified properties.  A dataframe is a list of rows; a numeric cell is
`Option ℚ` with `none` playing the role of pandas NaN.  The cleaning steps
(absolute value on numeric columns, groupby-mean aggregation, dropna, group-wise
median imputation) are translated from the source; the library calls whose code
is not part of the repository (pd.concat, StandardScaler, PCA) are modelled
from the specification, as marked in their doc comments.
-/

namespace UiMineria

/-- A numeric cell of the dataframe; `none` models pandas NaN (a missing value). -/
abbrev Cell := Option ℚ

/-- One row of the combined dataframe: the categorical `alumno` and `grupo`
identifiers and the numeric measurement columns, in a fixed column order. -/
structure Row where
  alumno : String
  grupo : String
  vals : List Cell
deriving DecidableEq

/-- A dataframe is a list of rows (row order is pandas index order). -/
abbrev Table := List Row

/-- Sign correction (main.py lines 27-28): absolute value applied to every
numeric cell; NaN cells stay NaN, categorical columns untouched. -/
def absStep (t : Table) : Table :=
  t.map (fun r => ⟨r.alumno, r.grupo, r.vals.map (Option.map (fun v => |v|))⟩)

/-- The defined (non-NaN) values of numeric column `j` among the given rows;
pandas aggregations skip NaN. -/
def colVals (rows : List Row) (j : ℕ) : List ℚ :=
  rows.filterMap (fun r => r.vals.getD j none)

/-- Mean of a list of defined values, `none` on the empty list: pandas
`mean()` with skipna yields NaN when a group has no defined values. -/
def meanOpt (xs : List ℚ) : Option ℚ :=
  if xs.isEmpty then none else some (xs.sum / (xs.length : ℚ))

/-- The raw rows belonging to one (`alumno`, `grupo`) pair. -/
def rowsFor (t : Table) (a g : String) : List Row :=
  t.filter (fun r => r.alumno == a && r.grupo == g)

/-- The distinct (`alumno`, `grupo`) keys occurring in the table. -/
def groupKeys (t : Table) : List (String × String) :=
  (t.map (fun r => (r.alumno, r.grupo))).dedup

/-- The aggregated row for one key: column-wise mean over that pair's raw
records, for each of the `n` numeric columns. -/
def aggRow (t : Table) (n : ℕ) (k : String × String) : Row :=
  ⟨k.1, k.2, (List.range n).map (fun j => meanOpt (colVals (rowsFor t k.1 k.2) j))⟩

/-- Aggregation (main.py line 37): `groupby(['alumno','grupo']).mean()` -
one row per distinct key, numeric columns reduced to the pair's mean. -/
def groupMean (n : ℕ) (t : Table) : Table :=
  (groupKeys t).map (aggRow t n)

/-- Row drop (main.py line 39): `dropna()` keeps exactly the rows with no
undefined cell. -/
def dropna (t : Table) : Table :=
  t.filter (fun r => r.vals.all Option.isSome)

/-- pandas median of a list of defined values: the middle element of the
sorted list, or the mean of the two middle elements; NaN (`none`) on an
empty list. -/
def median (xs : List ℚ) : Option ℚ :=
  if xs.isEmpty then none
  else
    let s := xs.insertionSort (fun a b => a ≤ b)
    if xs.length % 2 = 1 then some (s.getD (xs.length / 2) 0)
    else some ((s.getD (xs.length / 2 - 1) 0 + s.getD (xs.length / 2) 0) / 2)

/-- The rows of the table belonging to one `grupo` partition. -/
def sameGroup (t : Table) (g : String) : List Row :=
  t.filter (fun r => r.grupo == g)

/-- Imputation (main.py lines 46-49): each undefined numeric cell is filled
with the median of its column computed over the rows of the same `grupo`
partition; defined cells are unchanged, and if the partition has no defined
value in that column the cell stays undefined. -/
def imputeStep (t : Table) : Table :=
  t.map (fun r => ⟨r.alumno, r.grupo,
    (List.range r.vals.length).map (fun j =>
      match r.vals.getD j none with
      | some v => some v
      | none => median (colVals (sameGroup t r.grupo) j))⟩)

/-- The cleaning pipeline up to and including the row drop (lines 27-39),
i.e. the pipeline with the imputation step of lines 46-49 removed. -/
def cleanNoImpute (n : ℕ) (t : Table) : Table :=
  dropna (groupMean n (absStep t))

/-- The full cleaning pipeline (lines 27-49): sign correction, groupby-mean,
dropna, group-median imputation.  Its output is `numerical_data`, the matrix
entering standardization. -/
def cleaned (n : ℕ) (t : Table) : Table :=
  imputeStep (cleanNoImpute n t)

/-- Modelled from the spec: `pd.concat` (main.py line 21) over the loaded
tables is not part of the repository; per the spec, "concatenation of zero
tables fails", and otherwise the tables are concatenated row-wise in file
order. -/
def concatTables (ts : List Table) : Except String Table :=
  if ts.isEmpty then Except.error "No objects to concatenate" else Except.ok ts.flatten

/-- The pipeline from the list of parsed input files through cleaning; a
loader failure propagates uncaught (the `Except.error` is never handled), so
no partial result is produced. -/
def runPipeline (n : ℕ) (files : List Table) : Except String Table :=
  (concatTables files).map (cleaned n)

/-- Arithmetic mean of a column, as used by the standardizer (population
statistics over all rows). -/
def listMean (xs : List ℚ) : ℚ := xs.sum / (xs.length : ℚ)

/-- Population variance of a column (mean squared deviation). -/
def variance (xs : List ℚ) : ℚ :=
  ((xs.map (fun x => (x - listMean xs) ^ 2)).sum) / (xs.length : ℚ)

/-- Modelled from the spec: `StandardScaler.fit_transform` (main.py lines
56-57) is not part of the repository; per the spec each cell becomes
`(x - mean) / std` with population statistics, and a zero-variance column
divides by zero, producing undefined results - there is no guard.  Because
the standard deviation `√σ²` is irrational in general we record a defined
cell as the pair `(x - μ, σ²)` whose intended real value is `(x - μ)/√σ²`,
and a cell of a zero-variance column as `none` (undefined). -/
def stdColumn (xs : List ℚ) : List (Option (ℚ × ℚ)) :=
  xs.map (fun x => if variance xs = 0 then none else some (x - listMean xs, variance xs))

/-- Modelled from the spec: the result of the full eigendecomposition
computed by PCA (main.py lines 61-62), which is not part of the repository:
a list of eigenvalues and the matching list of eigenvectors. -/
structure Decomp where
  eigenvalues : List ℚ
  eigenvecs : List (List ℚ)
deriving DecidableEq

/-- Modelled from the spec: the invariants the spec states for a full-rank
decomposition of an `n`-feature standardized matrix - `n` components ordered
by descending eigenvalue, eigenvalues (variances along components)
nonnegative, and one eigenvector per component, each of length `n`. -/
def Decomp.WF (d : Decomp) (n : ℕ) : Prop :=
  d.eigenvalues.length = n ∧ d.eigenvecs.length = n ∧
  (∀ v ∈ d.eigenvecs, v.length = n) ∧
  d.eigenvalues.Sorted (fun a b => b ≤ a) ∧
  ∀ x ∈ d.eigenvalues, 0 ≤ x

instance (d : Decomp) (n : ℕ) : Decidable (d.WF n) := by
  unfold Decomp.WF; infer_instance

/-- Modelled from the spec: `explained_variance_ratio_` - each eigenvalue
divided by the sum of all eigenvalues of the full decomposition. -/
def explainedVarianceRatio (d : Decomp) : List ℚ :=
  d.eigenvalues.map (fun x => x / d.eigenvalues.sum)

/-- Running prefix sums, as computed by `cumsum` (main.py line 82). -/
def cumsum : List ℚ → List ℚ
  | [] => []
  | x :: xs => x :: (cumsum xs).map (fun y => x + y)

/-- Dot product of two feature vectors. -/
def dot (v w : List ℚ) : ℚ := (List.zipWith (fun a b => a * b) v w).sum

/-- Modelled from the spec: a Reducer invocation at target rank `k`
(main.py lines 61-62, 97-98, 128-129) returns the projected coordinates (one
row per record, `k` columns: the dot products with the top-`k` eigenvectors)
and the top-`k` eigenvector matrix. -/
def reduce (d : Decomp) (k : ℕ) (data : List (List ℚ)) :
    List (List ℚ) × List (List ℚ) :=
  (data.map (fun row => (d.eigenvecs.take k).map (fun v => dot v row)),
   d.eigenvecs.take k)

/-- The per-record score along the leading principal axis: the single column
of the rank-1 projection (main.py lines 128-134). -/
def firstComponentScores (d : Decomp) (data : List (List ℚ)) : List ℚ :=
  (reduce d 1 data).1.map (fun row => row.getD 0 0)

/-- The top-3 report (main.py lines 133-141): records sorted by descending
first-component score, first 3 taken. -/
def topReport (recs : List (String × ℚ)) : List (String × ℚ) :=
  (recs.insertionSort (fun p q => q.2 ≤ p.2)).take 3

/-- The `df_top_students` ranking: student names paired with their
first-component scores, sorted descending, top 3. -/
def topStudents (names : List String) (d : Decomp) (data : List (List ℚ)) :
    List (String × ℚ) :=
  topReport (names.zip (firstComponentScores d data))

/-- Every defined numeric cell of the table is nonnegative. -/
def NonnegTable (t : Table) : Prop :=
  ∀ r ∈ t, ∀ c ∈ r.vals, ∀ v, c = some v → 0 ≤ v

/-- The two input files of the end-to-end scenario: each contributes one raw
record for student "Ana" in grupo "A", with numeric values -5 and 7. -/
def anaFiles : List Table :=
  [[⟨"Ana", "A", [some (-5)]⟩], [⟨"Ana", "A", [some 7]⟩]]

/-! ### Helper lemmas -/

/-- Reconstructing a list from its `getD` values over `range` of its length. -/
lemma map_range_getD (l : List Cell) (F : ℕ → Cell)
    (h : ∀ j, j < l.length → F j = l.getD j none) :
    (List.range l.length).map F = l := by
  apply List.ext_getElem
  · simp
  · intro i h1 h2
    simp only [List.getElem_map, List.getElem_range]
    rw [h i h2, List.getD_eq_getElem _ _ h2]

/-- A table whose cells are all defined is a fixed point of the imputation
step: `fillna` has nothing to fill. -/
lemma imputeStep_of_all_some (t : Table)
    (h : ∀ r ∈ t, ∀ c ∈ r.vals, c.isSome = true) : imputeStep t = t := by
  unfold imputeStep
  conv_rhs => rw [← List.map_id t]
  apply List.map_congr_left
  intro r hr
  have hv : (List.range r.vals.length).map (fun j =>
      match r.vals.getD j none with
      | some v => some v
      | none => median (colVals (sameGroup t r.grupo) j)) = r.vals := by
    apply map_range_getD
    intro j hj
    have hmem : r.vals.getD j none ∈ r.vals := by
      rw [List.getD_eq_getElem _ _ hj]
      exact List.getElem_mem hj
    rcases Option.isSome_iff_exists.mp (h r hr (r.vals.getD j none) hmem) with ⟨v, hv⟩
    rw [hv]
  rw [hv]
  rfl

/-- Every row surviving `dropna` has only defined cells. -/
lemma dropna_all_some (t : Table) :
    ∀ r ∈ dropna t, ∀ c ∈ r.vals, c.isSome = true := by
  intro r hr c hc
  rcases List.mem_filter.mp hr with ⟨-, hall⟩
  exact List.all_eq_true.mp hall c hc

/-- Concrete evaluation of the aggregation on the end-to-end scenario data:
sign correction turns -5 into 5, aggregation averages 5 and 7 to 6. -/
lemma groupMean_ana : groupMean 1 (absStep anaFiles.flatten) = [⟨"Ana", "A", [some 6]⟩] := by
  simp [groupMean, absStep, anaFiles, groupKeys, aggRow, rowsFor,
    colVals, meanOpt, List.dedup, List.range_succ]
  norm_num

/-- Concrete evaluation of the cleaning pipeline (without imputation) on the
end-to-end scenario data. -/
lemma cleanNoImpute_ana : cleanNoImpute 1 anaFiles.flatten = [⟨"Ana", "A", [some 6]⟩] := by
  rw [cleanNoImpute, groupMean_ana]
  simp [dropna]

/-- Concrete evaluation of the full cleaning pipeline on the end-to-end
scenario data: the imputation step has nothing left to fill. -/
lemma cleaned_ana : cleaned 1 anaFiles.flatten = [⟨"Ana", "A", [some 6]⟩] := by
  rw [cleaned, cleanNoImpute_ana]
  simp [imputeStep, List.range_succ]

/-- A small table on which the imputation step actually fills a cell: the
first row of group "g" has an undefined value, the other two rows have the
values 4 and 2, whose median is 3. -/
def tImpute : Table := [⟨"a", "g", [none]⟩, ⟨"b", "g", [some 4]⟩, ⟨"c", "g", [some 2]⟩]

/-- The numeric cell of an aggregated row is the group mean of the
corresponding raw column. -/
lemma groupMean_cell (t : Table) (n j : ℕ) (a g : String) (hj : j < n) :
    ∀ r ∈ groupMean n t, r.alumno = a → r.grupo = g →
      r.vals.getD j none = meanOpt (colVals (rowsFor t a g) j) := by
  intro r hr ha hg
  rcases List.mem_map.mp hr with ⟨k, -, rfl⟩
  simp only [aggRow] at ha hg ⊢
  have hlen : j < ((List.range n).map (fun j =>
      meanOpt (colVals (rowsFor t k.1 k.2) j))).length := by simpa using hj
  rw [List.getD_eq_getElem _ _ hlen]
  simp only [List.getElem_map, List.getElem_range]
  rw [ha, hg]

/-! ### Claim theorems -/

/-- C9: the sign-correction step is idempotent - applying the absolute-value
transformation to the numeric columns twice yields exactly the same table as
applying it once. -/
theorem C9_abs_idempotent : ∀ t : Table, absStep (absStep t) = absStep t := by
  intro t
  simp only [absStep, List.map_map]
  congr 1
  funext r
  simp only [Function.comp_apply, List.map_map]
  congr 1
  apply List.map_congr_left
  intro c _
  cases c <;> simp [abs_abs]

/-- C8: on an empty list of input files the concatenation of zero tables
fails, the error propagates uncaught through the pipeline, and no partial
result is produced - the pipeline's result is exactly the loader error. -/
theorem C8_empty_input_fails (n : ℕ) :
    runPipeline n [] = Except.error "No objects to concatenate" := rfl

/-- C2: the table produced by the row-drop step contains no undefined
numeric values, so the group-median imputation step returns it unchanged:
the cleaning pipeline with the imputation lines and the pipeline without
them compute identical dataframes (hence identical downstream results). -/
theorem C2_imputation_noop (n : ℕ) (t : Table) :
    cleaned n t = cleanNoImpute n t ∧
    ∀ r ∈ cleanNoImpute n t, ∀ c ∈ r.vals, c ≠ none := by
  constructor
  · exact imputeStep_of_all_some _ (dropna_all_some _)
  · intro r hr c hc
    exact Option.isSome_iff_ne_none.mp (dropna_all_some _ r hr c hc)

/-- Witness for C2 on the end-to-end scenario data. -/
theorem C2_imputation_noop_witness :
    cleaned 1 anaFiles.flatten = cleanNoImpute 1 anaFiles.flatten ∧
    (some 6 : Cell) ≠ none :=
  ⟨(C2_imputation_noop 1 anaFiles.flatten).1,
   (C2_imputation_noop 1 anaFiles.flatten).2 ⟨"Ana", "A", [some 6]⟩
     (by rw [cleanNoImpute_ana]; simp) (some 6) (by simp)⟩

/-- C1: whenever the imputation step fills an undefined numeric cell, the
filled value is the median of that column over the rows of the same `grupo`
partition; moreover the imputed rows of a partition depend only on that
partition's rows (imputing the whole table and then restricting to one
`grupo` equals restricting first and imputing only that partition), so no
imputed value is derived from another partition's statistics. -/
theorem C1_imputation_local :
    (∀ (t : Table) (i j : ℕ) (hi : i < t.length) (hi' : i < (imputeStep t).length),
      j < (t.get ⟨i, hi⟩).vals.length →
      (t.get ⟨i, hi⟩).vals.getD j none = none →
      ((imputeStep t).get ⟨i, hi'⟩).vals.getD j none =
        median (colVals (sameGroup t (t.get ⟨i, hi⟩).grupo) j)) ∧
    (∀ (t : Table) (g : String),
      sameGroup (imputeStep t) g = imputeStep (sameGroup t g)) := by
  constructor
  · intro t i j hi hi' hj hnone
    simp only [List.get_eq_getElem] at hj hnone ⊢
    simp only [imputeStep, List.getElem_map]
    have hlen : j < ((List.range t[i].vals.length).map (fun j =>
        match t[i].vals.getD j none with
        | some v => some v
        | none => median (colVals (sameGroup t t[i].grupo) j))).length := by
      simpa using hj
    rw [List.getD_eq_getElem _ _ hlen]
    simp only [List.getElem_map, List.getElem_range]
    rw [hnone]
  · intro t g
    unfold imputeStep sameGroup
    rw [List.filter_map]
    apply List.map_congr_left
    intro r hr
    rcases List.mem_filter.mp hr with ⟨-, hg⟩
    have hge : r.grupo = g := by simpa using hg
    have hsame : List.filter (fun r2 => r2.grupo == r.grupo)
        (List.filter (fun r2 => r2.grupo == g) t) =
        List.filter (fun r2 => r2.grupo == r.grupo) t := by
      rw [hge, List.filter_filter]
      congr 1
      funext r2
      simp [Bool.and_self]
    rw [hsame]

/-- Witness for C1 on a table where a cell is actually filled. -/
theorem C1_imputation_local_witness :
    ((imputeStep tImpute).get ⟨0, by simp [imputeStep, tImpute]⟩).vals.getD 0 none =
      median (colVals (sameGroup tImpute "g") 0) ∧
    sameGroup (imputeStep tImpute) "g" = imputeStep (sameGroup tImpute "g") :=
  ⟨C1_imputation_local.1 tImpute 0 0 (by simp [tImpute]) (by simp [imputeStep, tImpute])
      (by simp [tImpute]) (by simp [tImpute]),
   C1_imputation_local.2 tImpute "g"⟩

/-- C4: the aggregated numeric value of an (`alumno`, `grupo`) pair is the
arithmetic mean of that pair's raw records: the mean of the two values for a
pair with exactly 2 records, the single value for a pair with 1 record; and
on the end-to-end scenario data (Ana in grupo "A" with attempts -5 and 7)
sign correction yields 5 and 7 and the aggregated value is 6. -/
theorem C4_group_mean_correct :
    (∀ (t : Table) (n j : ℕ) (a g : String) (r1 r2 : Row) (v1 v2 : ℚ),
      rowsFor t a g = [r1, r2] → j < n →
      r1.vals.getD j none = some v1 → r2.vals.getD j none = some v2 →
      ∀ r ∈ groupMean n t, r.alumno = a → r.grupo = g →
        r.vals.getD j none = some ((v1 + v2) / 2)) ∧
    (∀ (t : Table) (n j : ℕ) (a g : String) (r1 : Row) (v1 : ℚ),
      rowsFor t a g = [r1] → j < n →
      r1.vals.getD j none = some v1 →
      ∀ r ∈ groupMean n t, r.alumno = a → r.grupo = g →
        r.vals.getD j none = some v1) ∧
    (concatTables anaFiles).map (fun c => groupMean 1 (absStep c)) =
      Except.ok [⟨"Ana", "A", [some 6]⟩] := by
  refine ⟨?_, ?_, ?_⟩
  · intro t n j a g r1 r2 v1 v2 hrows hj h1 h2 r hr ha hg
    rw [groupMean_cell t n j a g hj r hr ha hg, hrows]
    simp only [colVals, List.filterMap_cons, List.filterMap_nil, h1, h2]
    norm_num [meanOpt]
  · intro t n j a g r1 v1 hrows hj h1 r hr ha hg
    rw [groupMean_cell t n j a g hj r hr ha hg, hrows]
    simp only [colVals, List.filterMap_cons, List.filterMap_nil, h1]
    norm_num [meanOpt]
  · simp only [concatTables, anaFiles]
    rw [show (([[(⟨"Ana", "A", [some (-5)]⟩ : Row)], [⟨"Ana", "A", [some 7]⟩]] :
      List Table).isEmpty) = false from rfl]
    simpa [Except.map] using groupMean_ana

/-- Witness for C4 on the end-to-end scenario data. -/
theorem C4_group_mean_correct_witness :
    ((⟨"Ana", "A", [some 6]⟩ : Row)).vals.getD 0 none = some ((5 + 7) / 2) :=
  C4_group_mean_correct.1 (absStep anaFiles.flatten) 1 0 "Ana" "A"
    ⟨"Ana", "A", [some 5]⟩ ⟨"Ana", "A", [some 7]⟩ 5 7
    (by norm_num [rowsFor, absStep, anaFiles]) (by norm_num)
    (by simp) (by simp)
    ⟨"Ana", "A", [some 6]⟩ (by rw [groupMean_ana]; simp) rfl rfl

/-- A defined `getD` hit is a member of the list. -/
lemma getD_some_mem (l : List Cell) (j : ℕ) (v : ℚ) (h : l.getD j none = some v) :
    some v ∈ l := by
  by_cases hj : j < l.length
  · rw [List.getD_eq_getElem _ _ hj] at h
    rw [← h]
    exact List.getElem_mem hj
  · rw [List.getD_eq_default _ _ (Nat.le_of_not_lt hj)] at h
    exact absurd h (by simp)

/-- Every element of `colVals rows j` is a defined cell of one of the rows. -/
lemma mem_colVals (rows : List Row) (j : ℕ) (v : ℚ) (h : v ∈ colVals rows j) :
    ∃ r ∈ rows, some v ∈ r.vals := by
  rcases List.mem_filterMap.mp h with ⟨r, hr, hv⟩
  exact ⟨r, hr, getD_some_mem _ _ _ hv⟩

/-- The mean of a list of nonnegative values is nonnegative. -/
lemma meanOpt_nonneg (xs : List ℚ) (h : ∀ x ∈ xs, 0 ≤ x) (v : ℚ)
    (hv : meanOpt xs = some v) : 0 ≤ v := by
  unfold meanOpt at hv
  split at hv
  · exact absurd hv (by simp)
  · rw [Option.some_inj] at hv
    rw [← hv]
    exact div_nonneg (List.sum_nonneg h) (Nat.cast_nonneg _)

/-- `getD` with default 0 on a list of nonnegative values is nonnegative. -/
lemma getD_zero_nonneg (s : List ℚ) (h : ∀ x ∈ s, 0 ≤ x) (i : ℕ) : 0 ≤ s.getD i 0 := by
  by_cases hi : i < s.length
  · rw [List.getD_eq_getElem _ _ hi]
    exact h _ (List.getElem_mem hi)
  · rw [List.getD_eq_default _ _ (Nat.le_of_not_lt hi)]

/-- The median of a list of nonnegative values is nonnegative. -/
lemma median_nonneg (xs : List ℚ) (h : ∀ x ∈ xs, 0 ≤ x) (v : ℚ)
    (hv : median xs = some v) : 0 ≤ v := by
  unfold median at hv
  have hs : ∀ x ∈ xs.insertionSort (fun a b => a ≤ b), 0 ≤ x := by
    intro x hx
    exact h x ((List.mem_insertionSort _).mp hx)
  split at hv
  · exact absurd hv (by simp)
  · split at hv <;> rw [Option.some_inj] at hv <;> rw [← hv]
    · exact getD_zero_nonneg _ hs _
    · have h1 := getD_zero_nonneg _ hs (xs.length / 2 - 1)
      have h2 := getD_zero_nonneg _ hs (xs.length / 2)
      linarith

/-- C10: after sign correction every defined numeric cell is nonnegative, and
this invariant is preserved by groupby-mean aggregation, by the row drop and
by the group-median imputation, so every numeric value entering
standardization (the cleaned table) is nonnegative. -/
theorem C10_nonneg_invariant :
    (∀ t, NonnegTable (absStep t)) ∧
    (∀ n t, NonnegTable t → NonnegTable (groupMean n t)) ∧
    (∀ t, NonnegTable t → NonnegTable (dropna t)) ∧
    (∀ t, NonnegTable t → NonnegTable (imputeStep t)) ∧
    (∀ n t, NonnegTable (cleaned n t)) := by
  have habs : ∀ t, NonnegTable (absStep t) := by
    intro t r hr c hc v hv
    rcases List.mem_map.mp hr with ⟨r0, -, rfl⟩
    rcases List.mem_map.mp hc with ⟨c0, -, rfl⟩
    cases c0 with
    | none => exact absurd hv (by simp)
    | some u =>
      rw [show Option.map (fun v => |v|) (some u) = some |u| from rfl, Option.some_inj] at hv
      rw [← hv]
      exact abs_nonneg u
  have hgm : ∀ n t, NonnegTable t → NonnegTable (groupMean n t) := by
    intro n t ht r hr c hc v hv
    rcases List.mem_map.mp hr with ⟨k, -, rfl⟩
    rcases List.mem_map.mp hc with ⟨j, -, rfl⟩
    refine meanOpt_nonneg _ ?_ v hv
    intro x hx
    rcases mem_colVals _ _ _ hx with ⟨r1, hr1, hx1⟩
    exact ht r1 (List.mem_of_mem_filter hr1) _ hx1 x rfl
  have hdrop : ∀ t, NonnegTable t → NonnegTable (dropna t) := by
    intro t ht r hr c hc v hv
    exact ht r (List.mem_of_mem_filter hr) c hc v hv
  have himp : ∀ t, NonnegTable t → NonnegTable (imputeStep t) := by
    intro t ht r hr c hc v hv
    rcases List.mem_map.mp hr with ⟨r0, hr0, rfl⟩
    rcases List.mem_map.mp hc with ⟨j, -, rfl⟩
    revert hv
    cases hcell : r0.vals.getD j none with
    | some u =>
      intro hv
      rw [Option.some_inj] at hv
      rw [← hv]
      exact ht r0 hr0 _ (getD_some_mem _ _ _ hcell) u rfl
    | none =>
      intro hv
      refine median_nonneg _ ?_ v hv
      intro x hx
      rcases mem_colVals _ _ _ hx with ⟨r1, hr1, hx1⟩
      exact ht r1 (List.mem_of_mem_filter hr1) _ hx1 x rfl
  refine ⟨habs, hgm, hdrop, himp, ?_⟩
  intro n t
  exact himp _ (hdrop _ (hgm _ _ (habs t)))

/-- Witness for C10: the cleaned end-to-end scenario table only holds the
nonnegative value 6. -/
theorem C10_nonneg_invariant_witness : (0 : ℚ) ≤ 6 :=
  C10_nonneg_invariant.2.2.2.2 1 anaFiles.flatten ⟨"Ana", "A", [some 6]⟩
    (by rw [cleaned_ana]; simp) (some 6) (by simp) 6 rfl

/-- C3: if a numeric column of the cleaned table has zero variance, the
standardization step divides by zero - every standardized cell of that
column is undefined, with no guard in the program; and zero variance does
occur, e.g. for any constant column. -/
theorem C3_zero_variance_undefined :
    (∀ xs : List ℚ, variance xs = 0 → ∀ c ∈ stdColumn xs, c = none) ∧
    (∀ xs : List ℚ, (∀ x ∈ xs, ∀ y ∈ xs, x = y) → variance xs = 0) := by
  constructor
  · intro xs h0 c hc
    rcases List.mem_map.mp hc with ⟨x, -, rfl⟩
    rw [if_pos h0]
  · intro xs hall
    rcases xs with - | ⟨a, l⟩
    · simp [variance]
    · have ha : ∀ x ∈ (a :: l), x = a := fun x hx => hall x hx a (by simp)
      have hlen : ((a :: l).length : ℚ) ≠ 0 := by
        simp only [List.length_cons]
        positivity
      have hmean : listMean (a :: l) = a := by
        rw [listMean, List.sum_eq_card_nsmul _ a ha, nsmul_eq_mul]
        exact mul_div_cancel_left₀ a hlen
      rw [variance, List.sum_eq_zero, zero_div]
      intro x hx
      rcases List.mem_map.mp hx with ⟨y, hy, rfl⟩
      rw [hmean, ha y hy]
      ring

/-- Evaluation of the standardizer on the constant column `[1, 1]`. -/
lemma stdColumn_const : stdColumn [1, 1] = [none, none] := by
  have h : variance [(1 : ℚ), 1] = 0 := by norm_num [variance, listMean]
  simp [stdColumn, h]

/-- Witness for C3 on the constant column `[1, 1]`. -/
theorem C3_zero_variance_undefined_witness :
    (stdColumn [1, 1]).getD 0 (some (0, 0)) = none :=
  C3_zero_variance_undefined.1 [1, 1] (by norm_num [variance, listMean]) _
    (by rw [stdColumn_const]; simp)

/-- Elements of the running prefix sums of a nonnegative list are
nonnegative. -/
lemma cumsum_nonneg (xs : List ℚ) (h : ∀ x ∈ xs, 0 ≤ x) : ∀ c ∈ cumsum xs, 0 ≤ c := by
  induction xs with
  | nil => simp [cumsum]
  | cons a l ih =>
    intro c hc
    have ha : 0 ≤ a := h a (by simp)
    rcases List.mem_cons.mp hc with rfl | hc
    · exact ha
    · rcases List.mem_map.mp hc with ⟨y, hy, rfl⟩
      have hy0 := ih (fun x hx => h x (by simp [hx])) y hy
      linarith

/-- The running prefix sums of a nonnegative list are nondecreasing. -/
lemma cumsum_sorted (xs : List ℚ) (h : ∀ x ∈ xs, 0 ≤ x) :
    (cumsum xs).Sorted (fun a b => a ≤ b) := by
  induction xs with
  | nil => simp [cumsum]
  | cons a l ih =>
    rw [cumsum, List.sorted_cons]
    constructor
    · intro b hb
      rcases List.mem_map.mp hb with ⟨y, hy, rfl⟩
      have hy0 := cumsum_nonneg l (fun x hx => h x (by simp [hx])) y hy
      linarith
    · exact List.Pairwise.map _ (fun x y hxy => by linarith)
        (ih (fun x hx => h x (by simp [hx])))

/-- `getLast?` commutes with mapping a fixed addition over the list. -/
lemma getLast?_map_add (a : ℚ) : ∀ l : List ℚ,
    (l.map (fun y => a + y)).getLast? = l.getLast?.map (fun y => a + y)
  | [] => rfl
  | [_] => rfl
  | x :: y :: l => by
    rw [List.map_cons, List.map_cons, List.getLast?_cons_cons, List.getLast?_cons_cons,
      ← List.map_cons]
    exact getLast?_map_add a (y :: l)

/-- The last running prefix sum is the total sum. -/
lemma cumsum_getLast (xs : List ℚ) (h : xs ≠ []) :
    (cumsum xs).getLast? = some xs.sum := by
  induction xs with
  | nil => exact absurd rfl h
  | cons a l ih =>
    cases l with
    | nil => simp [cumsum]
    | cons b m =>
      have hne : cumsum (b :: m) ≠ [] := by
        rw [show cumsum (b :: m) = b :: (cumsum m).map (fun y => b + y) from rfl]
        simp
      rw [show cumsum (a :: b :: m) = a :: (cumsum (b :: m)).map (fun y => a + y) from rfl]
      cases hc : (cumsum (b :: m)).map (fun y => a + y) with
      | nil => exact absurd (List.map_eq_nil_iff.mp hc) hne
      | cons c p =>
        rw [List.getLast?_cons_cons, ← hc, getLast?_map_add, ih (by simp)]
        simp [List.sum_cons]

/-- The sum of a list divided elementwise by a constant is the sum divided
by that constant. -/
lemma sum_map_div (xs : List ℚ) (S : ℚ) : (xs.map (fun x => x / S)).sum = xs.sum / S := by
  induction xs with
  | nil => simp
  | cons a l ih => simp [List.sum_cons, ih, add_div]

/-- C6: for the full-rank decomposition the explained-variance ratios are
non-increasing across the ordered components, the cumulative sum of the
ratios is non-decreasing, and the last cumulative value equals 1. -/
theorem C6_variance_ratio_monotone (d : Decomp) (n : ℕ) (hwf : d.WF n)
    (hpos : 0 < d.eigenvalues.sum) :
    (explainedVarianceRatio d).Sorted (fun a b => b ≤ a) ∧
    (cumsum (explainedVarianceRatio d)).Sorted (fun a b => a ≤ b) ∧
    (cumsum (explainedVarianceRatio d)).getLast? = some 1 := by
  obtain ⟨-, -, -, hsort, hnonneg⟩ := hwf
  have hratio_nonneg : ∀ x ∈ explainedVarianceRatio d, 0 ≤ x := by
    intro x hx
    rcases List.mem_map.mp hx with ⟨y, hy, rfl⟩
    exact div_nonneg (hnonneg y hy) (le_of_lt hpos)
  have hne : d.eigenvalues ≠ [] := by
    intro hnil
    rw [hnil] at hpos
    simp at hpos
  refine ⟨?_, cumsum_sorted _ hratio_nonneg, ?_⟩
  · exact List.Pairwise.map _
      (fun x y hxy => (div_le_div_iff_of_pos_right hpos).mpr hxy) hsort
  · rw [cumsum_getLast _ (by simpa [explainedVarianceRatio] using hne)]
    simp only [explainedVarianceRatio]
    rw [sum_map_div, div_self (ne_of_gt hpos)]

/-- A concrete full-rank decomposition of a 2-feature matrix, used to
instantiate the Reducer claims. -/
def dFull : Decomp := ⟨[3, 1], [[1, 0], [0, 1]]⟩

/-- Witness for C6 on a concrete full-rank decomposition. -/
theorem C6_variance_ratio_monotone_witness :
    (explainedVarianceRatio dFull).Sorted (fun a b => b ≤ a) ∧
    (cumsum (explainedVarianceRatio dFull)).Sorted (fun a b => a ≤ b) ∧
    (cumsum (explainedVarianceRatio dFull)).getLast? = some 1 :=
  C6_variance_ratio_monotone dFull 2 (by decide)
    (by norm_num [dFull, List.sum_cons, List.sum_nil])

/-- C7: a Reducer invocation with target rank `k` (for `k` = 1, 2 or the
full feature count) yields exactly `k` rows in the eigenvector matrix, each
of length equal to the number of numeric features, and a projected output
with one row per input record and exactly `k` columns. -/
theorem C7_projection_dims (d : Decomp) (n k : ℕ) (data : List (List ℚ))
    (hwf : d.WF n) (_hk : k = 1 ∨ k = 2 ∨ k = n) (hkn : k ≤ n) :
    (reduce d k data).2.length = k ∧
    (∀ v ∈ (reduce d k data).2, v.length = n) ∧
    (reduce d k data).1.length = data.length ∧
    (∀ row ∈ (reduce d k data).1, row.length = k) := by
  obtain ⟨-, hvlen, hvdim, -, -⟩ := hwf
  refine ⟨?_, ?_, by simp [reduce], ?_⟩
  · simp [reduce, List.length_take, hvlen, Nat.min_eq_left hkn]
  · intro v hv
    simp only [reduce] at hv
    exact hvdim v (List.mem_of_mem_take hv)
  · intro row hrow
    simp only [reduce] at hrow
    rcases List.mem_map.mp hrow with ⟨r0, -, rfl⟩
    simp [List.length_take, hvlen, Nat.min_eq_left hkn]

/-- Witness for C7 at rank 1 over the concrete decomposition. -/
theorem C7_projection_dims_witness :
    (reduce dFull 1 [[1, 2]]).2.length = 1 ∧
    (∀ v ∈ (reduce dFull 1 [[1, 2]]).2, v.length = 2) ∧
    (reduce dFull 1 [[1, 2]]).1.length = ([[(1 : ℚ), 2]]).length ∧
    (∀ row ∈ (reduce dFull 1 [[1, 2]]).1, row.length = 1) :=
  C7_projection_dims dFull 2 1 [[1, 2]] (by decide) (Or.inl rfl) (by norm_num)

/-- The head of the descending insertion sort is the record whose score
strictly dominates every other record's score. -/
lemma head_of_strict_max (recs : List (String × ℚ)) (p : String × ℚ)
    (hmem : p ∈ recs) (hmax : ∀ q ∈ recs, q ≠ p → q.2 < p.2) :
    (recs.insertionSort (fun x y => y.2 ≤ x.2)).head? = some p := by
  haveI ht : IsTotal (String × ℚ) (fun x y => y.2 ≤ x.2) := ⟨fun a b => le_total b.2 a.2⟩
  haveI htr : IsTrans (String × ℚ) (fun x y => y.2 ≤ x.2) :=
    ⟨fun _ _ _ h1 h2 => le_trans h2 h1⟩
  have hsorted := List.sorted_insertionSort (fun x y : String × ℚ => y.2 ≤ x.2) recs
  cases hs : recs.insertionSort (fun x y => y.2 ≤ x.2) with
  | nil =>
    have hp : p ∈ recs.insertionSort (fun x y => y.2 ≤ x.2) :=
      (List.mem_insertionSort _).mpr hmem
    rw [hs] at hp
    simp at hp
  | cons a tl =>
    simp only [List.head?_cons, Option.some_inj]
    by_cases hap : a = p
    · exact hap
    · exfalso
      have hain : a ∈ recs := (List.mem_insertionSort _).mp (by rw [hs]; simp)
      have hlt := hmax a hain hap
      have hpin : p ∈ a :: tl := by
        rw [← hs]
        exact (List.mem_insertionSort _).mpr hmem
      rcases List.mem_cons.mp hpin with rfl | hptl
      · exact hap rfl
      · rw [hs, List.sorted_cons] at hsorted
        have hle : p.2 ≤ a.2 := hsorted.1 p hptl
        linarith

/-- C5: if one record's first-principal-component score strictly exceeds
every other record's score, the top-3 report (records sorted by descending
first-component score, first 3 taken) lists that record first. -/
theorem C5_top_student_first (names : List String) (d : Decomp)
    (data : List (List ℚ)) (p : String × ℚ)
    (hmem : p ∈ names.zip (firstComponentScores d data))
    (hmax : ∀ q ∈ names.zip (firstComponentScores d data), q ≠ p → q.2 < p.2) :
    (topStudents names d data).head? = some p := by
  unfold topStudents topReport
  have h := head_of_strict_max _ p hmem hmax
  cases hl : (names.zip (firstComponentScores d data)).insertionSort
      (fun x y => y.2 ≤ x.2) with
  | nil =>
    rw [hl] at h
    simp at h
  | cons a tl =>
    rw [hl] at h
    simpa using h

/-- The decomposition of a single-feature matrix: one eigenvector `[1]`. -/
def dLead : Decomp := ⟨[1], [[1]]⟩

/-- Evaluation of the leading-component scores on the concrete data. -/
lemma scores_eval : firstComponentScores dLead [[3], [1], [2]] = [3, 1, 2] := by
  norm_num [firstComponentScores, reduce, dot, dLead]

/-- Witness for C5: student "X" has the strictly largest score and heads the
top-3 report. -/
theorem C5_top_student_first_witness :
    (topStudents ["X", "Y", "Z"] dLead [[3], [1], [2]]).head? = some ("X", 3) :=
  C5_top_student_first ["X", "Y", "Z"] dLead [[3], [1], [2]] ("X", 3)
    (by rw [scores_eval]; simp)
    (by
      rw [scores_eval]
      intro q hq hne
      rcases List.mem_cons.mp hq with rfl | hq
      · exact absurd rfl hne
      · rcases List.mem_cons.mp hq with rfl | hq
        · norm_num
        · rcases List.mem_cons.mp hq with rfl | hq
          · norm_num
          · simp at hq)

end UiMineria
